import Mathlib

/-!
Verification of the in-memory bounded TTL-LRU cache of the APOD-Explorer
backend (`backend/src/server.js`, class `LruTtlCache`).

The JavaScript `Map` preserves insertion order; the class treats the end of
that order as most-recently-used.  We embed the map as an association list
`List (K × Entry V)`, oldest entry first.  The current time (`Date.now()` in
the source) is passed explicitly as a `Nat` parameter `now`.  A stored
JavaScript value may itself be `undefined`, which the public interface cannot
distinguish from absence; values are therefore embedded as `Option V`, with
`none` standing for `undefined`.  `expiresAt` is `Option Nat`, `none` standing
for JavaScript `null` (never expires).  The configured `ttl` may be zero or
negative in JavaScript, so it is embedded as an `Int`.
-/

/-- A cache entry, mirroring the `{ value, expiresAt }` objects stored in the
`Map` of `LruTtlCache`. -/
structure Entry (V : Type) where
  value : Option V
  expiresAt : Option Nat
deriving DecidableEq, Repr

/-- The cache state: configuration (`max`, `ttl`) plus the ordered map,
oldest (least-recently-used) entry first. -/
structure Cache (K V : Type) where
  max : Nat
  ttl : Int
  map : List (K × Entry V)
deriving DecidableEq, Repr

variable {K V : Type} [DecidableEq K]

/-- `Map.get(key)` on the backing map: the entry stored at `key`, if any. -/
def lookupEntry : List (K × Entry V) → K → Option (Entry V)
  | [], _ => none
  | p :: ps, k => if p.1 = k then some p.2 else lookupEntry ps k

/-- `Map.delete(key)` on the backing map: remove the entry at `key`,
preserving the relative order of all other entries. -/
def mapDelete (m : List (K × Entry V)) (k : K) : List (K × Entry V) :=
  m.filter (fun p => p.1 ≠ k)

/-- `Map.has(key)` on the backing map. -/
def mapHas (m : List (K × Entry V)) (k : K) : Bool :=
  m.any (fun p => p.1 = k)

/-- `_isExpired(entry)` from the source:
`!entry || (entry.expiresAt && Date.now() > entry.expiresAt)`.
The `!entry` case is the absent case and is handled at each call site by the
`Map` lookup; here `entry.expiresAt && ...` is falsy when `expiresAt` is
`null` (our `none`) or the number `0`. -/
def isExpired (now : Nat) (e : Entry V) : Bool :=
  match e.expiresAt with
  | none => false
  | some t => decide (t ≠ 0) && decide (now > t)

/-- The eviction loop of `set`:
`while (this.map.size > this.max) { delete oldest }`. -/
def evictLoop (maxItems : Nat) : List (K × Entry V) → List (K × Entry V)
  | [] => []
  | p :: ps => if (p :: ps).length > maxItems then evictLoop maxItems ps else p :: ps

/-- `get(key)`: absent gives `undefined` with no state change; an expired
entry is purged and gives `undefined`; a live entry is moved to the
most-recently-used end (delete then re-insert) and its value returned. -/
def Cache.get (c : Cache K V) (now : Nat) (k : K) : Option V × Cache K V :=
  match lookupEntry c.map k with
  | none => (none, c)
  | some e =>
    if isExpired now e then
      (none, { c with map := mapDelete c.map k })
    else
      (e.value, { c with map := mapDelete c.map k ++ [(k, e)] })

/-- `set(key, value)`: remove any existing entry for the key, insert the new
entry as freshest with `expiresAt = now + ttl` when `ttl > 0` (else `null`),
then run the eviction loop. -/
def Cache.set (c : Cache K V) (now : Nat) (k : K) (v : Option V) : Cache K V :=
  let afterRemove := mapDelete c.map k
  let expiry : Option Nat := if c.ttl > 0 then some (now + c.ttl.toNat) else none
  { c with map := evictLoop c.max (afterRemove ++ [(k, ⟨v, expiry⟩)]) }

/-- `has(key)`: `this.get(key) !== undefined` — delegates to `get`, with all
of `get`'s side effects. -/
def Cache.has (c : Cache K V) (now : Nat) (k : K) : Bool × Cache K V :=
  ((c.get now k).1.isSome, (c.get now k).2)

/-- `delete(key)`: `this.map.delete(key)` — returns whether the key was
tracked, expiry never consulted. -/
def Cache.delete (c : Cache K V) (k : K) : Bool × Cache K V :=
  (mapHas c.map k, { c with map := mapDelete c.map k })

/-- `clear()`. -/
def Cache.clear (c : Cache K V) : Cache K V :=
  { c with map := [] }

/-- `size()`: purge every expired entry (full sweep over a snapshot of the
entries), then report the number of remaining entries. -/
def Cache.size (c : Cache K V) (now : Nat) : Nat × Cache K V :=
  let m := c.map.filter (fun p => !isExpired now p.2)
  (m.length, { c with map := m })

/-- `keys()`: `Array.from(this.map.keys())` — all tracked keys, oldest
first, no purging. -/
def Cache.keys (c : Cache K V) : List K :=
  c.map.map Prod.fst

/-- The number of live (non-expired) tracked entries at time `now`. -/
def liveCount (now : Nat) (c : Cache K V) : Nat :=
  (c.map.filter (fun p => !isExpired now p.2)).length

/-- A single cache operation together with the time at which it is issued. -/
inductive Op (K V : Type) where
  | opGet (now : Nat) (k : K)
  | opSet (now : Nat) (k : K) (v : Option V)
  | opHas (now : Nat) (k : K)
  | opDelete (k : K)
  | opClear
  | opSize (now : Nat)
  | opKeys

/-- State effect of one operation (`keys` reads without mutating). -/
def applyOp (c : Cache K V) : Op K V → Cache K V
  | .opGet now k => (c.get now k).2
  | .opSet now k v => c.set now k v
  | .opHas now k => (c.has now k).2
  | .opDelete k => (c.delete k).2
  | .opClear => c.clear
  | .opSize now => (c.size now).2
  | .opKeys => c

/-- Run a sequence of operations from a starting state. -/
def runOps (c : Cache K V) (ops : List (Op K V)) : Cache K V :=
  ops.foldl applyOp c

/-- The eviction rule exactly as the specification words it in claim C2:
after insertion, "while the count of live entries exceeds `maxItems`, evicts
the single least-recently-used entry".  This definition follows the SPEC's
words (live count, not total tracked count) and exists only to be compared
with the source-derived `Cache.set`. -/
def evictLoopSpecLive (now maxItems : Nat) : List (K × Entry V) → List (K × Entry V)
  | [] => []
  | p :: ps =>
    if ((p :: ps).filter (fun q => !isExpired now q.2)).length > maxItems then
      evictLoopSpecLive now maxItems ps
    else p :: ps

/-- `set` as claim C2 words it: insert as freshest, then evict oldest-first
while the live (non-expired) count exceeds `maxItems`. -/
def setSpecLive (c : Cache K V) (now : Nat) (k : K) (v : Option V) : Cache K V :=
  let afterRemove := mapDelete c.map k
  let expiry : Option Nat := if c.ttl > 0 then some (now + c.ttl.toNat) else none
  { c with map := evictLoopSpecLive now c.max (afterRemove ++ [(k, ⟨v, expiry⟩)]) }

section Lemmas

theorem get_of_absent {c : Cache K V} {now : Nat} {k : K}
    (h : lookupEntry c.map k = none) : c.get now k = (none, c) := by
  simp [Cache.get, h]

theorem get_of_expired {c : Cache K V} {now : Nat} {k : K} {e : Entry V}
    (h : lookupEntry c.map k = some e) (he : isExpired now e = true) :
    c.get now k = (none, { c with map := mapDelete c.map k }) := by
  simp [Cache.get, h, he]

theorem get_of_live {c : Cache K V} {now : Nat} {k : K} {e : Entry V}
    (h : lookupEntry c.map k = some e) (he : isExpired now e = false) :
    c.get now k = (e.value, { c with map := mapDelete c.map k ++ [(k, e)] }) := by
  simp [Cache.get, h, he]

theorem lookupEntry_mem {m : List (K × Entry V)} {k : K} {e : Entry V}
    (h : lookupEntry m k = some e) : (k, e) ∈ m := by
  induction m with
  | nil => simp [lookupEntry] at h
  | cons p ps ih =>
    rw [lookupEntry] at h
    split at h
    · rename_i hpk
      injection h with h
      subst hpk
      subst h
      simp
    · exact List.mem_cons_of_mem _ (ih h)

theorem lookupEntry_eq_none_of {m : List (K × Entry V)} {k : K}
    (h : ∀ p ∈ m, p.1 ≠ k) : lookupEntry m k = none := by
  induction m with
  | nil => rfl
  | cons p ps ih =>
    rw [lookupEntry, if_neg (h p (by simp))]
    exact ih fun q hq => h q (by simp [hq])

theorem not_mem_of_lookupEntry_eq_none {m : List (K × Entry V)} {k : K}
    (h : lookupEntry m k = none) : ∀ p ∈ m, p.1 ≠ k := by
  induction m with
  | nil => simp
  | cons p ps ih =>
    rw [lookupEntry] at h
    split at h
    · exact absurd h (by simp)
    · rename_i hpk
      intro q hq
      rcases List.mem_cons.mp hq with rfl | hq
      · exact hpk
      · exact ih h q hq

theorem mem_mapDelete {m : List (K × Entry V)} {k : K} {p : K × Entry V} :
    p ∈ mapDelete m k ↔ p ∈ m ∧ p.1 ≠ k := by
  simp [mapDelete]

theorem keys_mapDelete (m : List (K × Entry V)) (k : K) :
    (mapDelete m k).map Prod.fst = (m.map Prod.fst).filter (fun x => x ≠ k) := by
  unfold mapDelete
  rw [List.filter_map]
  rfl

theorem lookupEntry_append_of_no_key {m : List (K × Entry V)} {k : K}
    (h : ∀ p ∈ m, p.1 ≠ k) (rest : List (K × Entry V)) :
    lookupEntry (m ++ rest) k = lookupEntry rest k := by
  induction m with
  | nil => rfl
  | cons p ps ih =>
    rw [List.cons_append, lookupEntry, if_neg (h p (by simp))]
    exact ih fun q hq => h q (by simp [hq])

theorem lookupEntry_mapDelete_append (m : List (K × Entry V)) (k : K) (e : Entry V) :
    lookupEntry (mapDelete m k ++ [(k, e)]) k = some e := by
  rw [lookupEntry_append_of_no_key (fun p hp => (mem_mapDelete.mp hp).2)]
  simp [lookupEntry]

theorem lookupEntry_mapDelete (m : List (K × Entry V)) (k : K) :
    lookupEntry (mapDelete m k) k = none :=
  lookupEntry_eq_none_of fun p hp => (mem_mapDelete.mp hp).2

theorem mapDelete_cons_of_eq {m : List (K × Entry V)} {p : K × Entry V} {k : K}
    (hpk : p.1 = k) : mapDelete (p :: m) k = mapDelete m k := by
  simp [mapDelete, List.filter_cons, hpk]

theorem mapDelete_cons_of_ne {m : List (K × Entry V)} {p : K × Entry V} {k : K}
    (hpk : ¬ p.1 = k) : mapDelete (p :: m) k = p :: mapDelete m k := by
  simp [mapDelete, List.filter_cons, hpk]

theorem length_mapDelete_lt {m : List (K × Entry V)} {k : K} {e : Entry V}
    (h : lookupEntry m k = some e) : (mapDelete m k).length < m.length := by
  induction m with
  | nil => simp [lookupEntry] at h
  | cons p ps ih =>
    rw [lookupEntry] at h
    split at h
    · rename_i hpk
      rw [mapDelete_cons_of_eq hpk, List.length_cons]
      exact Nat.lt_succ_of_le (List.length_filter_le _ _)
    · rename_i hpk
      rw [mapDelete_cons_of_ne hpk, List.length_cons, List.length_cons]
      exact Nat.succ_lt_succ (ih h)

theorem length_mapDelete_of_lookup {m : List (K × Entry V)} {k : K} {e : Entry V}
    (hnd : (m.map Prod.fst).Nodup) (h : lookupEntry m k = some e) :
    (mapDelete m k).length + 1 = m.length := by
  induction m with
  | nil => simp [lookupEntry] at h
  | cons p ps ih =>
    rw [lookupEntry] at h
    simp only [List.map_cons, List.nodup_cons] at hnd
    split at h
    · rename_i hpk
      have hfil : mapDelete ps k = ps := by
        unfold mapDelete
        apply List.filter_eq_self.mpr
        intro q hq
        simp only [ne_eq, decide_eq_true_eq]
        intro hqk
        exact hnd.1 (List.mem_map.mpr ⟨q, hq, by rw [hqk, hpk]⟩)
      rw [mapDelete_cons_of_eq hpk, hfil, List.length_cons]
    · rename_i hpk
      have h2 := ih hnd.2 h
      rw [mapDelete_cons_of_ne hpk, List.length_cons, List.length_cons]
      omega

theorem evictLoop_eq_drop (maxItems : Nat) (m : List (K × Entry V)) :
    evictLoop maxItems m = m.drop (m.length - maxItems) := by
  induction m with
  | nil => simp [evictLoop]
  | cons p ps ih =>
    rw [evictLoop]
    by_cases h : (p :: ps).length > maxItems
    · rw [if_pos h, ih]
      have h1 : (p :: ps).length - maxItems = (ps.length - maxItems) + 1 := by
        simp only [List.length_cons] at h ⊢
        omega
      rw [h1, List.drop_succ_cons]
    · rw [if_neg h]
      have h1 : (p :: ps).length - maxItems = 0 := by
        simp only [List.length_cons, gt_iff_lt, not_lt] at h ⊢
        omega
      rw [h1, List.drop_zero]

theorem length_evictLoop_le (maxItems : Nat) (m : List (K × Entry V)) :
    (evictLoop maxItems m).length ≤ maxItems := by
  rw [evictLoop_eq_drop, List.length_drop]
  omega

theorem get_max (c : Cache K V) (now : Nat) (k : K) : ((c.get now k).2).max = c.max := by
  rcases h : lookupEntry c.map k with _ | e
  · rw [get_of_absent h]
  · rcases Bool.eq_false_or_eq_true (isExpired now e) with he | he
    · rw [get_of_expired h he]
    · rw [get_of_live h he]

theorem get_ttl (c : Cache K V) (now : Nat) (k : K) : ((c.get now k).2).ttl = c.ttl := by
  rcases h : lookupEntry c.map k with _ | e
  · rw [get_of_absent h]
  · rcases Bool.eq_false_or_eq_true (isExpired now e) with he | he
    · rw [get_of_expired h he]
    · rw [get_of_live h he]

theorem length_get_le (c : Cache K V) (now : Nat) (k : K) :
    ((c.get now k).2).map.length ≤ c.map.length := by
  rcases h : lookupEntry c.map k with _ | e
  · rw [get_of_absent h]
  · rcases Bool.eq_false_or_eq_true (isExpired now e) with he | he
    · rw [get_of_expired h he]
      exact le_of_lt (length_mapDelete_lt h)
    · rw [get_of_live h he]
      show (mapDelete c.map k ++ [(k, e)]).length ≤ c.map.length
      rw [List.length_append]
      have := length_mapDelete_lt h
      simp only [List.length_cons, List.length_nil]
      omega

theorem length_set_le (c : Cache K V) (now : Nat) (k : K) (v : Option V) :
    ((c.set now k v)).map.length ≤ c.max :=
  length_evictLoop_le _ _

theorem applyOp_max (c : Cache K V) (op : Op K V) : (applyOp c op).max = c.max := by
  cases op with
  | opGet now k => exact get_max c now k
  | opSet now k v => rfl
  | opHas now k => exact get_max c now k
  | opDelete k => rfl
  | opClear => rfl
  | opSize now => rfl
  | opKeys => rfl

theorem length_applyOp_le (c : Cache K V) (op : Op K V) (h : c.map.length ≤ c.max) :
    (applyOp c op).map.length ≤ c.max := by
  cases op with
  | opGet now k => exact le_trans (length_get_le c now k) h
  | opSet now k v => exact length_set_le c now k v
  | opHas now k => exact le_trans (length_get_le c now k) h
  | opDelete k => exact le_trans (List.length_filter_le _ _) h
  | opClear => exact Nat.zero_le _
  | opSize now => exact le_trans (List.length_filter_le _ _) h
  | opKeys => exact h

theorem runOps_max (c : Cache K V) (ops : List (Op K V)) : (runOps c ops).max = c.max := by
  induction ops generalizing c with
  | nil => rfl
  | cons op ops ih =>
    show (runOps (applyOp c op) ops).max = c.max
    exact (ih _).trans (applyOp_max c op)

theorem length_runOps_le (c : Cache K V) (ops : List (Op K V)) (h : c.map.length ≤ c.max) :
    (runOps c ops).map.length ≤ c.max := by
  induction ops generalizing c with
  | nil => exact h
  | cons op ops ih =>
    show (runOps (applyOp c op) ops).map.length ≤ c.max
    have h1 : (applyOp c op).map.length ≤ (applyOp c op).max := by
      rw [applyOp_max]
      exact length_applyOp_le c op h
    have h2 := ih (applyOp c op) h1
    rwa [applyOp_max] at h2

end Lemmas

/-- C1: starting from an empty cache constructed with `maxItems = N` (`N`
positive), after every sequence of operations the number of live
(non-expired) entries is at most `N`. -/
theorem live_entries_bounded (N : Nat) (ttl : Int) (ops : List (Op K V)) (now : Nat)
    (hN : 0 < N) :
    liveCount now (runOps (Cache.mk N ttl []) ops) ≤ N := by
  have h1 : (runOps (Cache.mk N ttl []) ops).map.length ≤ N :=
    length_runOps_le _ ops (by simp)
  exact le_trans (List.length_filter_le _ _) h1

/-- C1 witness at `N = 1`. -/
theorem live_entries_bounded_witness :
    0 < 1 ∧ liveCount 0 (runOps (Cache.mk 1 0 [] : Cache String Nat) []) ≤ 1 :=
  ⟨by decide, live_entries_bounded 1 0 [] 0 (by decide)⟩

/-- C2 (counterexample): with `maxItems = 1` and a single already-expired
tracked entry `a`, inserting `b` leaves the live count at 1, so by the claim
("eviction repeats while and only while the live count exceeds `maxItems`")
nothing may be evicted; the code nevertheless evicts `a`, because its loop
compares the TOTAL tracked count (expired entries included) against the
bound. -/
theorem set_evicts_by_total_count :
    liveCount 10 (Cache.mk 1 0 [("a", ⟨some 1, some 5⟩)] : Cache String Nat) = 0
    ∧ ((Cache.mk 1 0 [("a", ⟨some 1, some 5⟩)] : Cache String Nat).set 10 "b" (some 2)).keys
        = ["b"]
    ∧ (setSpecLive (Cache.mk 1 0 [("a", ⟨some 1, some 5⟩)] : Cache String Nat) 10 "b" (some 2)).keys
        = ["a", "b"]
    ∧ ((Cache.mk 1 0 [("a", ⟨some 1, some 5⟩)] : Cache String Nat).set 10 "b" (some 2))
        ≠ setSpecLive (Cache.mk 1 0 [("a", ⟨some 1, some 5⟩)] : Cache String Nat) 10 "b" (some 2) := by
  decide

/-- C2 (amended): `set` inserts the new entry as freshest after removing any
old entry for the key, then evicts entries one at a time from the
least-recently-used end — regardless of expiry — while (and only while) the
TOTAL number of tracked entries (expired entries included) exceeds
`maxItems`, stopping as soon as that bound holds.  Equivalently, the result
drops exactly the oldest `(n + 1) - maxItems` entries of the inserted map of
length `n + 1`, so the final tracked count is `min (n + 1) maxItems`. -/
theorem set_eviction_rule (c : Cache K V) (now : Nat) (k : K) (v : Option V) :
    (c.set now k v).map
        = (mapDelete c.map k
            ++ [(k, Entry.mk v (if c.ttl > 0 then some (now + c.ttl.toNat) else none))]).drop
            ((mapDelete c.map k).length + 1 - c.max)
      ∧ (c.set now k v).map.length = min ((mapDelete c.map k).length + 1) c.max := by
  constructor
  · show evictLoop c.max _ = _
    rw [evictLoop_eq_drop]
    congr 1
    simp
  · show (evictLoop c.max _).length = _
    rw [evictLoop_eq_drop, List.length_drop]
    simp only [List.length_append, List.length_cons, List.length_nil]
    omega

/-- C3: `get` contract.  Absent key: result is absent with no state change.
Expired key: result is absent, the entry is purged, and all other entries
keep their relative recency order.  Live key: the stored value is returned
and the key moves to the most-recently-used (last) position, all other
entries keeping their relative order. -/
theorem get_contract (c : Cache K V) (now : Nat) (k : K) :
    match lookupEntry c.map k with
    | none => c.get now k = (none, c)
    | some e =>
      if isExpired now e = true then
        (c.get now k).1 = none
        ∧ ((c.get now k).2).keys = c.keys.filter (fun x => x ≠ k)
        ∧ lookupEntry ((c.get now k).2).map k = none
        ∧ ((c.get now k).2).max = c.max ∧ ((c.get now k).2).ttl = c.ttl
      else
        (c.get now k).1 = e.value
        ∧ ((c.get now k).2).keys = c.keys.filter (fun x => x ≠ k) ++ [k]
        ∧ lookupEntry ((c.get now k).2).map k = some e
        ∧ ((c.get now k).2).max = c.max ∧ ((c.get now k).2).ttl = c.ttl := by
  split
  · rename_i h
    exact get_of_absent h
  · rename_i e h
    split
    · rename_i he
      refine ⟨by rw [get_of_expired h he], ?_, ?_, by rw [get_of_expired h he],
        by rw [get_of_expired h he]⟩
      · rw [get_of_expired h he]
        exact keys_mapDelete c.map k
      · rw [get_of_expired h he]
        exact lookupEntry_mapDelete c.map k
    · rename_i he
      have he' : isExpired now e = false := by simpa using he
      refine ⟨by rw [get_of_live h he'], ?_, ?_, by rw [get_of_live h he'],
        by rw [get_of_live h he']⟩
      · rw [get_of_live h he']
        show (mapDelete c.map k ++ [(k, e)]).map Prod.fst
          = (c.map.map Prod.fst).filter (fun x => x ≠ k) ++ [k]
        rw [List.map_append, keys_mapDelete]
        rfl
      · rw [get_of_live h he']
        exact lookupEntry_mapDelete_append c.map k e

theorem mem_of_evictLoop {maxItems : Nat} {m : List (K × Entry V)} {p : K × Entry V}
    (hp : p ∈ evictLoop maxItems m) : p ∈ m := by
  rw [evictLoop_eq_drop] at hp
  exact List.mem_of_mem_drop hp

theorem mem_set_key_eq {c : Cache K V} {t : Nat} {k : K} {v : Option V} {p : K × Entry V}
    (hp : p ∈ (c.set t k v).map) (hk : p.1 = k) :
    p = (k, Entry.mk v (if c.ttl > 0 then some (t + c.ttl.toNat) else none)) := by
  have h1 := mem_of_evictLoop hp
  rcases List.mem_append.mp h1 with h | h
  · exact absurd hk (mem_mapDelete.mp h).2
  · simpa using h

/-- C5: `size` sweeps the whole cache — the returned count is the live count,
the surviving entries are exactly the live entries of the old state in their
old order, and none of them is expired.  Consequently, once strictly more
than `ttl` milliseconds have passed since a `set(k, v)` with `ttl > 0`,
`get(k)` returns absent and a subsequent `size()` counts no entry for `k`. -/
theorem size_sweeps_and_expiry (c : Cache K V) (k : K) (v : Option V) (t t2 now : Nat)
    (httl : 0 < c.ttl) (ht : t + c.ttl.toNat < t2) :
    (c.size now).1 = liveCount now c
    ∧ (∀ p ∈ ((c.size now).2).map, isExpired now p.2 = false)
    ∧ ((c.size now).2).map.Sublist c.map
    ∧ (∀ p ∈ c.map, isExpired now p.2 = false → p ∈ ((c.size now).2).map)
    ∧ ((c.set t k v).get t2 k).1 = none
    ∧ (∀ p ∈ ((((c.set t k v).get t2 k).2).size t2).2.map, p.1 ≠ k)
    ∧ ((((c.set t k v).get t2 k).2).size t2).1
        = (((((c.set t k v).get t2 k).2).size t2).2).map.length := by
  have hsize1 : (c.size now).1 = liveCount now c := rfl
  have hsize2 : ∀ p ∈ ((c.size now).2).map, isExpired now p.2 = false := by
    intro p hp
    have := List.mem_filter.mp hp
    simpa using this.2
  have hsize3 : ((c.size now).2).map.Sublist c.map := List.filter_sublist _
  have hsize4 : ∀ p ∈ c.map, isExpired now p.2 = false → p ∈ ((c.size now).2).map := by
    intro p hp hlive
    exact List.mem_filter.mpr ⟨hp, by simp [hlive]⟩
  have hkeynone : ∀ p ∈ ((c.set t k v).get t2 k).2.map, p.1 ≠ k := by
    rcases hlk : lookupEntry (c.set t k v).map k with _ | e
    · rw [get_of_absent hlk]
      exact not_mem_of_lookupEntry_eq_none hlk
    · have hke := mem_set_key_eq (lookupEntry_mem hlk) rfl
      have he : e = Entry.mk v (if c.ttl > 0 then some (t + c.ttl.toNat) else none) := by
        injection hke with h1 h2
      have hexp : isExpired t2 e = true := by
        rw [he, if_pos httl]
        simp only [isExpired, ne_eq, Bool.and_eq_true, decide_eq_true_eq]
        omega
      rw [get_of_expired hlk hexp]
      intro p hp
      exact (mem_mapDelete.mp hp).2
  have hget : ((c.set t k v).get t2 k).1 = none := by
    rcases hlk : lookupEntry (c.set t k v).map k with _ | e
    · rw [get_of_absent hlk]
    · have hke := mem_set_key_eq (lookupEntry_mem hlk) rfl
      have he : e = Entry.mk v (if c.ttl > 0 then some (t + c.ttl.toNat) else none) := by
        injection hke with h1 h2
      have hexp : isExpired t2 e = true := by
        rw [he, if_pos httl]
        simp only [isExpired, ne_eq, Bool.and_eq_true, decide_eq_true_eq]
        omega
      rw [get_of_expired hlk hexp]
  refine ⟨hsize1, hsize2, hsize3, hsize4, hget, ?_, rfl⟩
  intro p hp
  have := List.mem_filter.mp hp
  exact hkeynone p this.1

/-- C5 witness: `ttl = 10`, `set` at time 0, observed at time 11. -/
theorem size_sweeps_and_expiry_witness :
    0 < (Cache.mk 2 10 [] : Cache String Nat).ttl
    ∧ 0 + (Cache.mk 2 10 [] : Cache String Nat).ttl.toNat < 11
    ∧ (((Cache.mk 2 10 [] : Cache String Nat).set 0 "a" (some 1)).get 11 "a").1 = none :=
  ⟨by decide, by decide,
    (size_sweeps_and_expiry (Cache.mk 2 10 []) "a" (some 1) 0 11 0
      (by decide) (by decide)).2.2.2.2.1⟩

/-- C4: true LRU, not FIFO.  With `maxItems = 2` and no expiry in play,
`set(a,1); set(b,2); get(a); set(c,3)` evicts `b` (the least-recently-used
key at the time `c` is inserted): afterwards `get(b)` is absent while
`get(a)` returns 1 and `get(c)` returns 3. -/
theorem lru_access_order_decides_eviction :
    (((((((Cache.mk 2 1000000 [] : Cache String Nat).set 0 "a" (some 1)).set 1 "b"
        (some 2)).get 2 "a").2).set 3 "c" (some 3)).get 4 "b").1 = none
    ∧ (((((((Cache.mk 2 1000000 [] : Cache String Nat).set 0 "a" (some 1)).set 1 "b"
        (some 2)).get 2 "a").2).set 3 "c" (some 3)).get 4 "a").1 = some 1
    ∧ (((((((Cache.mk 2 1000000 [] : Cache String Nat).set 0 "a" (some 1)).set 1 "b"
        (some 2)).get 2 "a").2).set 3 "c" (some 3)).get 4 "c").1 = some 3 := by
  decide

/-- C6 (counterexample): at time 10 the tracked entry for `a` is already past
its `expiresAt = 5`, yet `delete("a")` returns `true`, not `false` as the
claim states: `Map.delete` never consults expiry. -/
theorem delete_expired_returns_true :
    isExpired 10 (Entry.mk (some 1) (some 5) : Entry Nat) = true
    ∧ ((Cache.mk 2 0 [("a", Entry.mk (some 1) (some 5))] : Cache String Nat).delete "a").1
        = true := by
  decide

/-- C6 (amended): `delete(key)` returns `true` exactly when the key is
tracked — whether or not the entry has already expired — removes that entry,
and has no other effect: every other entry survives unchanged in its old
relative order, and the configuration is untouched. -/
theorem delete_contract (c : Cache K V) (k : K) :
    ((c.delete k).1 = true ↔ k ∈ c.keys)
    ∧ ((c.delete k).2).keys = c.keys.filter (fun x => x ≠ k)
    ∧ (∀ p ∈ c.map, p.1 ≠ k → p ∈ ((c.delete k).2).map)
    ∧ (∀ p ∈ ((c.delete k).2).map, p ∈ c.map ∧ p.1 ≠ k)
    ∧ ((c.delete k).2).max = c.max ∧ ((c.delete k).2).ttl = c.ttl := by
  refine ⟨?_, keys_mapDelete c.map k, ?_, ?_, rfl, rfl⟩
  · show mapHas c.map k = true ↔ k ∈ c.map.map Prod.fst
    simp only [mapHas, List.any_eq_true, decide_eq_true_eq, List.mem_map]
  · intro p hp hpk
    exact mem_mapDelete.mpr ⟨hp, hpk⟩
  · intro p hp
    exact ⟨(mem_mapDelete.mp hp).1, (mem_mapDelete.mp hp).2⟩

/-- C7: `has` is `get` with the value discarded — identical state effect
(same recency repositioning on a live hit, same purge on an expired entry),
and its boolean is exactly "get produced a value rather than absent". -/
theorem has_eq_get (c : Cache K V) (now : Nat) (k : K) :
    (c.has now k).1 = ((c.get now k).1).isSome
    ∧ (c.has now k).2 = (c.get now k).2
    ∧ ((c.has now k).1 = true ↔ ∃ w, (c.get now k).1 = some w) := by
  refine ⟨rfl, rfl, ?_⟩
  show ((c.get now k).1).isSome = true ↔ ∃ w, (c.get now k).1 = some w
  exact Option.isSome_iff_exists

/-- C8: `keys` lists every tracked key — expired-but-unpurged entries
included — in recency order, oldest first (the order of the backing map),
and has no state effect: as an operation it leaves the cache unchanged. -/
theorem keys_contract (c : Cache K V) (now : Nat) :
    c.keys = c.map.map Prod.fst
    ∧ (∀ p ∈ c.map, isExpired now p.2 = true → p.1 ∈ c.keys)
    ∧ c.keys.length = c.map.length
    ∧ applyOp c Op.opKeys = c := by
  refine ⟨rfl, ?_, by simp [Cache.keys], rfl⟩
  intro p hp _
  exact List.mem_map.mpr ⟨p, hp, rfl⟩

theorem mapDelete_append (m1 m2 : List (K × Entry V)) (k : K) :
    mapDelete (m1 ++ m2) k = mapDelete m1 k ++ mapDelete m2 k := by
  unfold mapDelete
  exact List.filter_append m1 m2

theorem mapDelete_idem (m : List (K × Entry V)) (k : K) :
    mapDelete (mapDelete m k) k = mapDelete m k :=
  List.filter_eq_self.mpr fun q hq => by simpa using (mem_mapDelete.mp hq).2

theorem mapDelete_single_self (k : K) (e : Entry V) : mapDelete [(k, e)] k = [] := by
  simp [mapDelete]

theorem mapDelete_append_self (m : List (K × Entry V)) (k : K) (e : Entry V) :
    mapDelete (mapDelete m k ++ [(k, e)]) k = mapDelete m k := by
  rw [mapDelete_append, mapDelete_idem, mapDelete_single_self, List.append_nil]

/-- C9: on a live, unexpired, unmodified key (in a well-formed state: one
entry per key, as a JavaScript `Map` guarantees), repeated `get` calls return
the stored value each time, the second call does not change the state at all,
and the number of tracked entries never changes. -/
theorem get_idempotent (c : Cache K V) (now : Nat) (k : K) (e : Entry V)
    (hnd : (c.map.map Prod.fst).Nodup)
    (hl : lookupEntry c.map k = some e)
    (he : isExpired now e = false) :
    (c.get now k).1 = e.value
    ∧ (((c.get now k).2).get now k).1 = e.value
    ∧ (((c.get now k).2).get now k).2 = (c.get now k).2
    ∧ ((c.get now k).2).map.length = c.map.length := by
  have h1 := get_of_live hl he
  have c1eq : (c.get now k).2 = { c with map := mapDelete c.map k ++ [(k, e)] } := by
    rw [h1]
  have hl2 : lookupEntry ((c.get now k).2).map k = some e := by
    rw [c1eq]
    exact lookupEntry_mapDelete_append _ _ _
  have h2 := get_of_live hl2 he
  refine ⟨by rw [h1], by rw [h2], ?_, ?_⟩
  · rw [h2, c1eq]
    show ({ c with map := mapDelete ({ c with map := mapDelete c.map k ++ [(k, e)] } :
      Cache K V).map k ++ [(k, e)] } : Cache K V) = _
    rw [show ({ c with map := mapDelete c.map k ++ [(k, e)] } : Cache K V).map
        = mapDelete c.map k ++ [(k, e)] from rfl,
      mapDelete_append_self]
  · rw [c1eq]
    show (mapDelete c.map k ++ [(k, e)]).length = c.map.length
    rw [List.length_append]
    have := length_mapDelete_of_lookup hnd hl
    simp only [List.length_cons, List.length_nil]
    omega

/-- C9 witness: a singleton cache holding a never-expiring entry. -/
theorem get_idempotent_witness :
    ((Cache.mk 2 0 [("a", Entry.mk (some 5) none)] : Cache String Nat).map.map
        Prod.fst).Nodup
    ∧ lookupEntry (Cache.mk 2 0 [("a", Entry.mk (some 5) none)] : Cache String Nat).map "a"
        = some (Entry.mk (some 5) none)
    ∧ isExpired 0 (Entry.mk (some 5) none : Entry Nat) = false
    ∧ ((((Cache.mk 2 0 [("a", Entry.mk (some 5) none)] : Cache String Nat).get 0 "a").2).get
        0 "a").2 = ((Cache.mk 2 0 [("a", Entry.mk (some 5) none)] : Cache String Nat).get
        0 "a").2 :=
  ⟨by decide, by decide, by decide,
    (get_idempotent (Cache.mk 2 0 [("a", Entry.mk (some 5) none)]) 0 "a"
      (Entry.mk (some 5) none) (by decide) (by decide) (by decide)).2.2.1⟩

theorem mem_last_evictLoop {maxItems : Nat} (hmax : 0 < maxItems)
    (m : List (K × Entry V)) (q : K × Entry V) :
    q ∈ evictLoop maxItems (m ++ [q]) := by
  rw [evictLoop_eq_drop]
  have hlen : (m ++ [q]).length = m.length + 1 := by simp
  rw [hlen, List.drop_append_of_le_length (by omega)]
  exact List.mem_append_right _ (by simp)

/-- C10: the public interface cannot tell a stored `undefined` from absence.
With a positive capacity, after `set(k, undefined)` the entry is tracked
(`keys()` lists `k`), yet `has(k)` is `false` and `get(k)` yields the same
`undefined` as for a key that was never stored. -/
theorem set_undefined_indistinguishable (c : Cache K V) (now now2 : Nat) (k : K)
    (hmax : 0 < c.max) :
    k ∈ (c.set now k none).keys
    ∧ ((c.set now k none).has now2 k).1 = false
    ∧ ((c.set now k none).get now2 k).1 = none
    ∧ (∀ d : Cache K V, lookupEntry d.map k = none →
        (d.get now2 k).1 = none ∧ (d.has now2 k).1 = false) := by
  have hget : ((c.set now k none).get now2 k).1 = none := by
    rcases hlk : lookupEntry (c.set now k none).map k with _ | e
    · rw [get_of_absent hlk]
    · have hke := mem_set_key_eq (lookupEntry_mem hlk) rfl
      have he : e = Entry.mk none (if c.ttl > 0 then some (now + c.ttl.toNat) else none) := by
        injection hke with h1 h2
      rcases Bool.eq_false_or_eq_true (isExpired now2 e) with hex | hex
      · rw [get_of_expired hlk hex]
      · rw [get_of_live hlk hex, he]
  refine ⟨?_, ?_, hget, ?_⟩
  · show k ∈ ((c.set now k none).map).map Prod.fst
    refine List.mem_map.mpr ⟨(k, Entry.mk none
      (if c.ttl > 0 then some (now + c.ttl.toNat) else none)), ?_, rfl⟩
    exact mem_last_evictLoop hmax _ _
  · show (((c.set now k none).get now2 k).1).isSome = false
    rw [hget]
    rfl
  · intro d hd
    constructor
    · rw [get_of_absent hd]
    · show ((d.get now2 k).1).isSome = false
      rw [get_of_absent hd]
      rfl

/-- C10 witness: an empty cache with capacity 2. -/
theorem set_undefined_indistinguishable_witness :
    0 < (Cache.mk 2 0 [] : Cache String Nat).max
    ∧ "a" ∈ ((Cache.mk 2 0 [] : Cache String Nat).set 0 "a" none).keys :=
  ⟨by decide,
    (set_undefined_indistinguishable (Cache.mk 2 0 [] : Cache String Nat) 0 0 "a"
      (by decide)).1⟩
